import Mathlib

/-!
Verification development for the padclient message core.

The Go sources embedded here are `message_handler.go` (`readMessages`) and
`encryption.go` (`encryptAES`, `decryptAES`, `encryptXOR`).  Lines are
modelled as `List Char` (Go strings are byte sequences; the protocol text is
ASCII), byte buffers as `List Nat` (each entry a byte value; XOR of bytes
stays below 256 so no modular wrap is needed), and Go runtime panics
(out-of-range indexing, `CryptBlocks` on a partial block, negative slice
bounds) as explicit `panicked` outcomes.
-/

namespace PadClient

/-- Character list of a string literal, used to write protocol text. -/
def chars (s : String) : List Char := s.data

/-- Go `strings.TrimRight(s, "\r\n")`: drop trailing CR and LF characters. -/
def trimRightCRLF (s : List Char) : List Char :=
  (s.reverse.dropWhile (fun c => c == '\r' || c == '\n')).reverse

/-- Helper for the prefix test: first argument is the candidate prefix. -/
def preAux : List Char → List Char → Bool
  | [], _ => true
  | _ :: _, [] => false
  | p :: ps, c :: cs => c == p && preAux ps cs

/-- Go `strings.HasPrefix(s, pre)`. -/
def startsWith (s pre : List Char) : Bool := preAux pre s

/-- Go `strings.TrimPrefix(s, pre)`: drop `pre` when it is a prefix, else return `s`. -/
def trimPre (s pre : List Char) : List Char :=
  if startsWith s pre then s.drop pre.length else s

/-- Go `strings.SplitN(s, sep, 2)` for a non-empty `sep`, splitting at the first
occurrence: `none` when `sep` does not occur (Go returns a single part), otherwise
the text before and after the first occurrence. -/
def splitOnce (sep : List Char) : List Char → Option (List Char × List Char)
  | [] => none
  | c :: cs =>
    if startsWith (c :: cs) sep then some ([], (c :: cs).drop sep.length)
    else
      match splitOnce sep cs with
      | some (a, b) => some (c :: a, b)
      | none => none

/-- Go `strings.Contains(s, sep)` for non-empty `sep`, phrased via `splitOnce`. -/
def containsSub (s sep : List Char) : Bool := (splitOnce sep s).isSome

/-- Go `strings.Join(elems, "\n")`. -/
def joinNL : List (List Char) → List Char
  | [] => []
  | [l] => l
  | l :: ls => l ++ '\n' :: joinNL ls

/-- Error cases of Go `encoding/hex.Decode`: an invalid byte (reported first,
scanning left to right) or an odd-length input. -/
inductive HexErr
  | invalidByte (c : Char)
  | oddLength
deriving DecidableEq, Repr

/-- Go `encoding/hex.fromHexChar`: value of one hex digit. -/
def fromHexChar (c : Char) : Option Nat :=
  if '0' ≤ c ∧ c ≤ '9' then some (c.toNat - '0'.toNat)
  else if 'a' ≤ c ∧ c ≤ 'f' then some (c.toNat - 'a'.toNat + 10)
  else if 'A' ≤ c ∧ c ≤ 'F' then some (c.toNat - 'A'.toNat + 10)
  else none

/-- Go `encoding/hex.DecodeString`: bytes of a hex string, processing digit pairs
left to right; the first invalid digit wins, and an odd trailing valid digit is
reported as an odd-length error (as in Go's `Decode` loop). -/
def hexDecode : List Char → Except HexErr (List Nat)
  | [] => .ok []
  | [c] =>
    match fromHexChar c with
    | none => .error (.invalidByte c)
    | some _ => .error .oddLength
  | a :: b :: rest =>
    match fromHexChar a with
    | none => .error (.invalidByte a)
    | some x =>
      match fromHexChar b with
      | none => .error (.invalidByte b)
      | some y =>
        match hexDecode rest with
        | .error e => .error e
        | .ok t => .ok ((x * 16 + y) :: t)

/-- Uppercase hex digit character for a value below 16. -/
def hexDigitUpper (n : Nat) : Char :=
  if n < 10 then Char.ofNat (48 + n) else Char.ofNat (55 + n)

/-- Hex digits of `n` (most significant first), with bounded recursion depth. -/
def hexDigitsAux : Nat → Nat → List Char
  | 0, _ => []
  | fuel + 1, n => if n = 0 then [] else hexDigitsAux fuel (n / 16) ++ [hexDigitUpper (n % 16)]

/-- Uppercase hex rendering of `n`. -/
def hexUpper (n : Nat) : List Char :=
  if n = 0 then ['0'] else hexDigitsAux 8 n

/-- Pad a digit string on the left with zeros to at least four characters. -/
def padLeft4 (l : List Char) : List Char := List.replicate (4 - l.length) '0' ++ l

/-- Go `fmt` verb `%#U` applied to a rune: `U+XXXX`, followed by the quoted
character when it is printable (modelled here for the ASCII printable range). -/
def formatHashU (c : Char) : List Char :=
  let code := chars "U+" ++ padLeft4 (hexUpper c.toNat)
  if 32 ≤ c.toNat ∧ c.toNat ≤ 126 then
    code ++ (' ' :: Char.ofNat 39 :: c :: [Char.ofNat 39])
  else code

/-- Error text of Go `encoding/hex` errors, as rendered by `%v`. -/
def hexErrStr : HexErr → List Char
  | .invalidByte c => chars "encoding/hex: invalid byte: " ++ formatHashU c
  | .oddLength => chars "encoding/hex: odd length hex string"

/-- Decimal digits of `n` (most significant first), with bounded recursion depth. -/
def decDigitsAux : Nat → Nat → List Char
  | 0, _ => []
  | fuel + 1, n => if n = 0 then [] else decDigitsAux fuel (n / 10) ++ [Char.ofNat (48 + n % 10)]

/-- Decimal rendering of `n`, as Go `strconv.Itoa` on a non-negative value. -/
def natToDec (n : Nat) : List Char :=
  if n = 0 then ['0'] else decDigitsAux 20 n

/-- Key lengths accepted by Go `crypto/aes.NewCipher`: 16, 24 or 32 bytes. -/
def validKeySize (k : Nat) : Bool := k == 16 || k == 24 || k == 32

/-- Error text of Go `aes.KeySizeError`. -/
def keySizeErr (k : Nat) : List Char := chars "crypto/aes: invalid key size " ++ natToDec k

/-- Embedding of `encryptXOR` (encryption.go): the loop writes
`ciphertext[i] = message[i] ^ key[i]` for every index of `message`, and panics
with an out-of-range index (modelled as `none`) when the key is shorter. -/
def encryptXOR : List Nat → List Nat → Option (List Nat)
  | [], _ => some []
  | _ :: _, [] => none
  | m :: ms, k :: ks =>
    match encryptXOR ms ks with
    | none => none
    | some r => some ((m ^^^ k) :: r)

/-- Pointwise XOR of two byte lists (length of the shorter input). -/
def zipXor (a b : List Nat) : List Nat := List.zipWith (fun x y => x ^^^ y) a b

/-- Modelled from the spec: the block cipher primitive itself (Go `crypto/aes`,
`Encrypt`/`Decrypt` on single 16-byte blocks) is standard-library code outside
this repository, so it is modelled as an abstract keyed block map pair; the
repository's own logic (key-size check, padding, IV handling, chained-block
mode, padding strip) is embedded concretely below. -/
structure BlockCipher where
  enc : List Nat → List Nat → List Nat
  dec : List Nat → List Nat → List Nat

/-- Chained-block (CBC) encryption over 16-byte blocks: each plaintext block is
XORed with the previous ciphertext block (initially the IV) before the block
map is applied, as in Go `cipher.NewCBCEncrypter`. -/
def cbcEncBlocks (E : List Nat → List Nat) : List Nat → List (List Nat) → List (List Nat)
  | _, [] => []
  | prev, b :: bs =>
    let c := E (zipXor b prev)
    c :: cbcEncBlocks E c bs

/-- Chained-block (CBC) decryption over 16-byte blocks, as in Go
`cipher.NewCBCDecrypter`. -/
def cbcDecBlocks (D : List Nat → List Nat) : List Nat → List (List Nat) → List (List Nat)
  | _, [] => []
  | prev, c :: cs => zipXor (D c) prev :: cbcDecBlocks D c cs

/-- Split a byte list into consecutive 16-byte chunks; the fuel argument bounds
the recursion and is immaterial once it is at least the list length. -/
def toBlocksAux : Nat → List Nat → List (List Nat)
  | _, [] => []
  | 0, l => [l]
  | fuel + 1, x :: xs => ((x :: xs).take 16) :: toBlocksAux fuel ((x :: xs).drop 16)

/-- Split a byte list into consecutive 16-byte chunks (the last chunk may be
shorter when the length is not a multiple of 16). -/
def toBlocks (l : List Nat) : List (List Nat) := toBlocksAux l.length l

/-- Embedding of `encryptAES` (encryption.go).  The random IV drawn from
`rand.Reader` is modelled as the explicit parameter `iv`, with a successful
read assumed; `aes.NewCipher`'s key-size check is `validKeySize`.  The
plaintext is padded with `padding` bytes of value `padding` where
`padding = 16 - len % 16`, then CBC-encrypted, and the IV is prepended. -/
def encryptAES (bc : BlockCipher) (iv key plaintext : List Nat) : Except (List Char) (List Nat) :=
  if validKeySize key.length then
    let padding := 16 - plaintext.length % 16
    let padded := plaintext ++ List.replicate padding padding
    Except.ok (iv ++ (cbcEncBlocks (bc.enc key) iv (toBlocks padded)).flatten)
  else Except.error (keySizeErr key.length)

/-- Outcome of `decryptAES`: a plaintext, a returned error, or a runtime panic. -/
inductive AESResult
  | ok (plaintext : List Nat)
  | err (msg : List Char)
  | panicked
deriving DecidableEq, Repr

/-- Embedding of `decryptAES` (encryption.go).  After the too-short check and
the key-size check, the leading block is split off as IV and the remainder is
CBC-decrypted; Go panics are modelled explicitly: `CryptBlocks` panics when
the remainder is not a whole number of blocks, `ciphertextData[len-1]` panics
when the remainder is empty, and the final slice panics when the padding-length
byte exceeds the remainder's length. -/
def decryptAES (bc : BlockCipher) (key ciphertext : List Nat) : AESResult :=
  if ciphertext.length < 16 then .err (chars "ciphertext too short")
  else if validKeySize key.length then
    let iv := ciphertext.take 16
    let ciphertextData := ciphertext.drop 16
    if ciphertextData.length % 16 = 0 then
      let decrypted := (cbcDecBlocks (bc.dec key) iv (toBlocks ciphertextData)).flatten
      match decrypted.getLast? with
      | none => .panicked
      | some paddingLength =>
        if decrypted.length < paddingLength then .panicked
        else .ok (decrypted.take (decrypted.length - paddingLength))
    else .panicked
  else .err (keySizeErr key.length)

/-- Events sent on the message channel (message_handler.go / main.go): the
tagged union of `serverMsg`, `operatorMsg`, `kickedMsg`, `bannedMsg`,
`disconnectMsg` and `incomingMessage`.  The `content` of an `incomingMessage`
is kept as the plaintext byte list (Go converts it with `string(plaintext)`,
an identity on the underlying bytes). -/
inductive Msg
  | serverMsg (content : List Char)
  | operatorMsg (content : List Char)
  | kickedMsg
  | bannedMsg
  | disconnectMsg
  | incomingMessage (senderID : List Char) (content : List Nat) (isBroadcast : Bool)
deriving DecidableEq, Repr

/-- Mutable state of the `readMessages` loop: the `inMultiLineResponse` flag
and the `multiLineBuffer` of captured lines. -/
structure ReaderState where
  inMultiLineResponse : Bool
  multiLineBuffer : List (List Char)
deriving DecidableEq, Repr

/-- State at connection start: `Normal` mode, empty buffer. -/
def initState : ReaderState := ⟨false, []⟩

/-- Result of classifying one (trimmed, non-empty) line: continue with emitted
events and a new state, stop the loop after emitting events (`return` after
kicked/banned), or a runtime panic. -/
inductive StepRes
  | cont (events : List Msg) (st : ReaderState)
  | stop (events : List Msg)
  | panicked
deriving DecidableEq, Repr

/-- Sentinel line `REGISTERED as operator`. -/
def regLine : List Char := chars "REGISTERED as operator"

/-- Sentinel line for being kicked. -/
def kickLine : List Char := chars "KICKED You have been kicked by the operator"

/-- Sentinel line for being banned. -/
def banLine : List Char := chars "BANNED You have been banned by the operator"

/-- Capture-begin sentinel. -/
def beginLine : List Char := chars "BEGIN_RESPONSE"

/-- Capture-end sentinel. -/
def endLine : List Char := chars "END_RESPONSE"

/-- Direct-message line marker checked with `strings.HasPrefix`. -/
def msgFromPre : List Char := chars "MESSAGE from"

/-- Broadcast line marker checked with `strings.HasPrefix`. -/
def bcastFromPre : List Char := chars "BROADCAST from"

/-- Separator between sender info and payload. -/
def colonSpace : List Char := chars ": "

/-- Separator between hex key and hex ciphertext. -/
def barSep : List Char := chars "|"

/-- Embedding of the direct-message payload handling (message_handler.go,
lines 143-176): split the payload at `|` (no occurrence means Go's `SplitN`
yielded one part), hex-decode key and ciphertext, compare lengths, and XOR.
Error paths emit the exact notice texts of the source. -/
def handleDirectPayload (senderID payload : List Char) (st : ReaderState) : StepRes :=
  match splitOnce barSep payload with
  | none => .cont [.serverMsg (chars "Invalid message format from " ++ senderID ++ chars ". Ignoring.")] st
  | some (keyHex, ciphertextHex) =>
    match hexDecode keyHex with
    | .error e => .cont [.serverMsg (chars "Error decoding key from " ++ senderID ++ chars ": " ++ hexErrStr e)] st
    | .ok key =>
      match hexDecode ciphertextHex with
      | .error e => .cont [.serverMsg (chars "Error decoding ciphertext from " ++ senderID ++ chars ": " ++ hexErrStr e)] st
      | .ok ciphertext =>
        if key.length ≠ ciphertext.length then
          .cont [.serverMsg (chars "Key and ciphertext lengths do not match from " ++ senderID ++ chars ".")] st
        else
          match encryptXOR ciphertext key with
          | none => .panicked
          | some plaintext => .cont [.incomingMessage senderID plaintext false] st

/-- Embedding of the broadcast payload handling (message_handler.go, lines
91-142): `strings.Contains` selects the XOR sub-format (with the broadcast
notice texts; the inner part-count error branch of the source is unreachable
once `Contains` holds but is kept), otherwise the whole payload is hex-decoded
and AES-decrypted under the shared secret. -/
def handleBroadcastPayload (bc : BlockCipher) (hashedSecret : List Nat)
    (senderID payload : List Char) (st : ReaderState) : StepRes :=
  if containsSub payload barSep then
    match splitOnce barSep payload with
    | none => .cont [.serverMsg (chars "Invalid broadcast message format from " ++ senderID ++ chars ". Ignoring.")] st
    | some (keyHex, ciphertextHex) =>
      match hexDecode keyHex with
      | .error e => .cont [.serverMsg (chars "Error decoding key from broadcast from " ++ senderID ++ chars ": " ++ hexErrStr e)] st
      | .ok key =>
        match hexDecode ciphertextHex with
        | .error e => .cont [.serverMsg (chars "Error decoding ciphertext from broadcast from " ++ senderID ++ chars ": " ++ hexErrStr e)] st
        | .ok ciphertext =>
          if key.length ≠ ciphertext.length then
            .cont [.serverMsg (chars "Key and ciphertext lengths do not match in broadcast from " ++ senderID ++ chars ".")] st
          else
            match encryptXOR ciphertext key with
            | none => .panicked
            | some plaintext => .cont [.incomingMessage senderID plaintext true] st
  else
    match hexDecode payload with
    | .error e => .cont [.serverMsg (chars "Error decoding broadcast from " ++ senderID ++ chars ": " ++ hexErrStr e)] st
    | .ok ciphertext =>
      match decryptAES bc hashedSecret ciphertext with
      | .err e => .cont [.serverMsg (chars "Error decrypting broadcast from " ++ senderID ++ chars ": " ++ e)] st
      | .panicked => .panicked
      | .ok plaintext => .cont [.incomingMessage senderID plaintext true] st

/-- Embedding of the per-line classification of `readMessages`
(message_handler.go, lines 34-180), applied to an already CR/LF-trimmed,
non-empty line: the five sentinel checks in source order, then capture-mode
accumulation, then the message/broadcast branch, then the catch-all notice. -/
def classifyLine (bc : BlockCipher) (hashedSecret : List Nat)
    (st : ReaderState) (message : List Char) : StepRes :=
  if message = regLine then
    .cont [.operatorMsg (chars "You are registered as the server operator.")] st
  else if message = kickLine then .stop [.kickedMsg]
  else if message = banLine then .stop [.bannedMsg]
  else if message = beginLine then .cont [] ⟨true, []⟩
  else if message = endLine then
    .cont [.serverMsg (joinNL st.multiLineBuffer)] ⟨false, st.multiLineBuffer⟩
  else if st.inMultiLineResponse then .cont [] ⟨true, st.multiLineBuffer ++ [message]⟩
  else if startsWith message msgFromPre || startsWith message bcastFromPre then
    match splitOnce colonSpace message with
    | none => .cont [.serverMsg (chars "Invalid message format. Ignoring.")] st
    | some (senderInfo, encryptedData) =>
      let sender : List Char × Bool :=
        if startsWith senderInfo msgFromPre then
          (trimPre senderInfo (chars "MESSAGE from "), false)
        else if startsWith senderInfo bcastFromPre then
          (trimPre senderInfo (chars "BROADCAST from "), true)
        else ([], false)
      if sender.2 then handleBroadcastPayload bc hashedSecret sender.1 encryptedData st
      else handleDirectPayload sender.1 encryptedData st
  else .cont [.serverMsg message] st

/-- How a run of the reader loop ended: a failed read surfaced as a
disconnect event, an explicit `return` after kicked/banned, or a panic. -/
inductive Termination
  | disconnected
  | halted
  | panicked
deriving DecidableEq, Repr

/-- Embedding of the `readMessages` loop over a finite stream of raw lines
(the stream ending models the read error path, which emits `disconnectMsg`):
each line is CR/LF-trimmed, blank lines are skipped, and classification
events are emitted in order until the stream ends, the loop returns, or a
panic occurs. -/
def readMessages (bc : BlockCipher) (hashedSecret : List Nat)
    (st : ReaderState) : List (List Char) → List Msg × Termination
  | [] => ([.disconnectMsg], .disconnected)
  | raw :: rest =>
    let message := trimRightCRLF raw
    if message = [] then readMessages bc hashedSecret st rest
    else
      match classifyLine bc hashedSecret st message with
      | .cont evs st' =>
        let r := readMessages bc hashedSecret st' rest
        (evs ++ r.1, r.2)
      | .stop evs => (evs, .halted)
      | .panicked => ([], .panicked)

/-- Decode-direct error taxonomy of the spec (section 4.2): wrong part count
(FormatError), invalid hex in either part (DecodeError), or a decoded length
mismatch (FormatError). -/
inductive CodecErr
  | formatParts
  | decodeKey (e : HexErr)
  | decodeCiphertext (e : HexErr)
  | lengthMismatch
deriving DecidableEq, Repr

/-- Modelled from the spec: Decode-direct (section 4.2) — split on the first
`|`, fail when the split does not yield exactly two parts, hex-decode each
part, fail on a decoded length mismatch, and XOR ciphertext with key. -/
def decodeDirect (payload : List Char) : Except CodecErr (List Nat) :=
  match splitOnce barSep payload with
  | none => .error .formatParts
  | some (keyHex, ciphertextHex) =>
    match hexDecode keyHex with
    | .error e => .error (.decodeKey e)
    | .ok key =>
      match hexDecode ciphertextHex with
      | .error e => .error (.decodeCiphertext e)
      | .ok ciphertext =>
        if key.length = ciphertext.length then .ok (zipXor ciphertext key)
        else .error .lengthMismatch

/-- Event emitted for a direct-message payload, by decode outcome, with the
source's notice texts. -/
def directEvent (senderID : List Char) : Except CodecErr (List Nat) → Msg
  | .ok pt => .incomingMessage senderID pt false
  | .error .formatParts => .serverMsg (chars "Invalid message format from " ++ senderID ++ chars ". Ignoring.")
  | .error (.decodeKey e) => .serverMsg (chars "Error decoding key from " ++ senderID ++ chars ": " ++ hexErrStr e)
  | .error (.decodeCiphertext e) => .serverMsg (chars "Error decoding ciphertext from " ++ senderID ++ chars ": " ++ hexErrStr e)
  | .error .lengthMismatch => .serverMsg (chars "Key and ciphertext lengths do not match from " ++ senderID ++ chars ".")

/-- Event emitted for a broadcast payload in the XOR sub-format, by decode
outcome, with the source's broadcast notice texts. -/
def broadcastXorEvent (senderID : List Char) : Except CodecErr (List Nat) → Msg
  | .ok pt => .incomingMessage senderID pt true
  | .error .formatParts => .serverMsg (chars "Invalid broadcast message format from " ++ senderID ++ chars ". Ignoring.")
  | .error (.decodeKey e) => .serverMsg (chars "Error decoding key from broadcast from " ++ senderID ++ chars ": " ++ hexErrStr e)
  | .error (.decodeCiphertext e) => .serverMsg (chars "Error decoding ciphertext from broadcast from " ++ senderID ++ chars ": " ++ hexErrStr e)
  | .error .lengthMismatch => .serverMsg (chars "Key and ciphertext lengths do not match in broadcast from " ++ senderID ++ chars ".")

/-- Broadcast block-cipher sub-format handling (hex-decode the whole payload,
then AES-decrypt under the shared secret), spelled out for stating the
sub-format selection theorem. -/
def broadcastAesStep (bc : BlockCipher) (hashedSecret : List Nat)
    (senderID payload : List Char) (st : ReaderState) : StepRes :=
  match hexDecode payload with
  | .error e => .cont [.serverMsg (chars "Error decoding broadcast from " ++ senderID ++ chars ": " ++ hexErrStr e)] st
  | .ok ciphertext =>
    match decryptAES bc hashedSecret ciphertext with
    | .err e => .cont [.serverMsg (chars "Error decrypting broadcast from " ++ senderID ++ chars ": " ++ e)] st
    | .panicked => .panicked
    | .ok plaintext => .cont [.incomingMessage senderID plaintext true] st

/-- Trivial block cipher (identity in both directions) used to instantiate the
abstract block-cipher parameter in concrete witnesses. -/
def idCipher : BlockCipher := ⟨fun _ b => b, fun _ b => b⟩

theorem zipXor_length (a b : List Nat) : (zipXor a b).length = min a.length b.length :=
  List.length_zipWith _ _ _

theorem zipXor_cancel (a b : List Nat) (h : a.length ≤ b.length) :
    zipXor (zipXor a b) b = a := by
  induction a generalizing b with
  | nil => simp [zipXor]
  | cons x xs ih =>
    cases b with
    | nil => simp at h
    | cons y ys =>
      have hxs : xs.length ≤ ys.length := by simpa using h
      have htail := ih ys hxs
      simp only [zipXor, List.zipWith_cons_cons] at htail ⊢
      rw [Nat.xor_cancel_right, htail]

theorem encryptXOR_eq_zip (m k : List Nat) (h : m.length ≤ k.length) :
    encryptXOR m k = some (zipXor m k) := by
  induction m generalizing k with
  | nil => simp [encryptXOR, zipXor]
  | cons x xs ih =>
    cases k with
    | nil => simp at h
    | cons y ys =>
      have hxs : xs.length ≤ ys.length := by simpa using h
      simp [encryptXOR, ih ys hxs, zipXor]

theorem encryptXOR_isSome (m k : List Nat) :
    ((encryptXOR m k).isSome = true) ↔ m.length ≤ k.length := by
  induction m generalizing k with
  | nil => simp [encryptXOR]
  | cons x xs ih =>
    cases k with
    | nil => simp [encryptXOR]
    | cons y ys =>
      cases hxy : encryptXOR xs ys with
      | none =>
        have : ¬ xs.length ≤ ys.length := by
          intro hle
          rw [encryptXOR_eq_zip xs ys hle] at hxy
          exact Option.noConfusion hxy
        simp [encryptXOR, hxy]
        omega
      | some r =>
        have : xs.length ≤ ys.length := (ih ys).1 (by simp [hxy])
        simp [encryptXOR, hxy]
        omega

theorem encryptXOR_ext (m k ext : List Nat) (h : m.length ≤ k.length) :
    encryptXOR m (k ++ ext) = encryptXOR m k := by
  induction m generalizing k with
  | nil => simp [encryptXOR]
  | cons x xs ih =>
    cases k with
    | nil => simp at h
    | cons y ys =>
      have hxs : xs.length ≤ ys.length := by simpa using h
      simp [encryptXOR, List.cons_append, ih ys hxs]

/-- C6: the XOR cipher is self-inverse: for every byte sequence `m` and every
key `k` of the same length, XOR-encrypting twice with `k` recovers `m`. -/
theorem c6_xor_self_inverse (m k : List Nat) (h : k.length = m.length) :
    (encryptXOR m k).bind (fun c => encryptXOR c k) = some m := by
  have h1 : m.length ≤ k.length := le_of_eq h.symm
  rw [encryptXOR_eq_zip m k h1, Option.some_bind,
    encryptXOR_eq_zip (zipXor m k) k (by simp [zipXor_length]),
    zipXor_cancel m k h1]

/-- Witness for C6 at m = [1,2,3], k = [7,8,9]. -/
theorem c6_xor_self_inverse_witness :
    (encryptXOR [1, 2, 3] [7, 8, 9]).bind (fun c => encryptXOR c [7, 8, 9]) = some [1, 2, 3] :=
  c6_xor_self_inverse [1, 2, 3] [7, 8, 9] (by decide)

/-- C9: the XOR cipher is panic-free exactly when the key is at least as long
as the message; when defined, the output has the message's length, and key
bytes beyond the message length are ignored. -/
theorem c9_xor_definedness (m k : List Nat) :
    (((encryptXOR m k).isSome = true) ↔ m.length ≤ k.length)
    ∧ (∀ c, encryptXOR m k = some c → c.length = m.length)
    ∧ (∀ ext, m.length ≤ k.length → encryptXOR m (k ++ ext) = encryptXOR m k) := by
  refine ⟨encryptXOR_isSome m k, ?_, fun ext h => encryptXOR_ext m k ext h⟩
  intro c hc
  have hlen : m.length ≤ k.length := (encryptXOR_isSome m k).1 (by simp [hc])
  rw [encryptXOR_eq_zip m k hlen] at hc
  cases hc
  simp [zipXor_length]
  omega

/-- Witness for C9 at m = [1,2], k = [3,4,5], extension [9]. -/
theorem c9_xor_definedness_witness :
    (encryptXOR [1, 2] [3, 4, 5]).isSome = true
    ∧ ([2, 6] : List Nat).length = ([1, 2] : List Nat).length
    ∧ encryptXOR [1, 2] ([3, 4, 5] ++ [9]) = encryptXOR [1, 2] [3, 4, 5] :=
  ⟨(c9_xor_definedness [1, 2] [3, 4, 5]).1.mpr (by decide),
   (c9_xor_definedness [1, 2] [3, 4, 5]).2.1 [2, 6] (by decide),
   (c9_xor_definedness [1, 2] [3, 4, 5]).2.2 [9] (by decide)⟩

/-- C1: a broadcast line without a separator whose payload is valid hex
(here 32 hex digits, decoding to exactly 16 bytes, under a 32-byte secret of
an accepted key size) makes the classifier panic — `decryptAES` indexes
`ciphertextData[len-1]` on an empty post-IV remainder — instead of emitting
the single error `ServerNotice` the claim requires; the reader goroutine
crashes rather than proceeding to the next line.  This holds for every block
cipher instantiation, since the panic occurs before any block is decrypted. -/
theorem c1_broadcast_valid_hex_panics (bc : BlockCipher) :
    readMessages bc (List.replicate 32 0) initState
      [chars "BROADCAST from alice: 00000000000000000000000000000000"]
      = ([], Termination.panicked) := rfl

/-- C8: the exact kicked sentinel line yields exactly one `Kicked` event and
the reader loop returns, producing no further events regardless of the
remaining stream contents, from any framing state. -/
theorem c8_kicked_terminal (bc : BlockCipher) (hashedSecret : List Nat)
    (st : ReaderState) (rest : List (List Char)) :
    readMessages bc hashedSecret st (kickLine :: rest)
      = ([Msg.kickedMsg], Termination.halted) := rfl

/-- C10: the capture buffer is cleared only by the capture-begin sentinel and
is preserved by the capture-end flush, so `END_RESPONSE` in Normal state
emits a `ServerNotice` carrying the join of the leftover buffer (the empty
string at connection start), and two consecutive `END_RESPONSE` lines emit
the same notice text twice. -/
theorem c10_end_flush_keeps_buffer (bc : BlockCipher) (hashedSecret : List Nat)
    (flag : Bool) (buf : List (List Char)) (rest : List (List Char)) :
    (classifyLine bc hashedSecret ⟨flag, buf⟩ endLine
        = .cont [.serverMsg (joinNL buf)] ⟨false, buf⟩)
    ∧ (classifyLine bc hashedSecret ⟨flag, buf⟩ beginLine = .cont [] ⟨true, []⟩)
    ∧ (readMessages bc hashedSecret ⟨false, buf⟩ (endLine :: endLine :: rest)
        = (Msg.serverMsg (joinNL buf) :: Msg.serverMsg (joinNL buf) ::
            (readMessages bc hashedSecret ⟨false, buf⟩ rest).1,
           (readMessages bc hashedSecret ⟨false, buf⟩ rest).2))
    ∧ joinNL [] = ([] : List Char) :=
  ⟨rfl, rfl, rfl, rfl⟩

theorem handleDirect_eq (senderID payload : List Char) (st : ReaderState) :
    handleDirectPayload senderID payload st
      = .cont [directEvent senderID (decodeDirect payload)] st := by
  unfold handleDirectPayload decodeDirect
  cases hsp : splitOnce barSep payload with
  | none => simp [hsp, directEvent]
  | some pr =>
    obtain ⟨kh, ch⟩ := pr
    cases hk : hexDecode kh with
    | error e => simp [hsp, hk, directEvent]
    | ok key =>
      cases hc : hexDecode ch with
      | error e => simp [hsp, hk, hc, directEvent]
      | ok ct =>
        by_cases hlen : key.length = ct.length
        · have hx := encryptXOR_eq_zip ct key (le_of_eq hlen.symm)
          simp [hsp, hk, hc, hlen, hx, directEvent]
        · simp [hsp, hk, hc, hlen, directEvent]

theorem handleBroadcast_xor_eq (bc : BlockCipher) (hashedSecret : List Nat)
    (senderID payload : List Char) (st : ReaderState)
    (h : containsSub payload barSep = true) :
    handleBroadcastPayload bc hashedSecret senderID payload st
      = .cont [broadcastXorEvent senderID (decodeDirect payload)] st := by
  unfold handleBroadcastPayload decodeDirect
  rw [if_pos h]
  cases hsp : splitOnce barSep payload with
  | none => simp [containsSub, hsp] at h
  | some pr =>
    obtain ⟨kh, ch⟩ := pr
    cases hk : hexDecode kh with
    | error e => simp [hsp, hk, broadcastXorEvent]
    | ok key =>
      cases hc : hexDecode ch with
      | error e => simp [hsp, hk, hc, broadcastXorEvent]
      | ok ct =>
        by_cases hlen : key.length = ct.length
        · have hx := encryptXOR_eq_zip ct key (le_of_eq hlen.symm)
          simp [hsp, hk, hc, hlen, hx, broadcastXorEvent]
        · simp [hsp, hk, hc, hlen, broadcastXorEvent]

theorem handleBroadcast_aes_eq (bc : BlockCipher) (hashedSecret : List Nat)
    (senderID payload : List Char) (st : ReaderState)
    (h : containsSub payload barSep = false) :
    handleBroadcastPayload bc hashedSecret senderID payload st
      = broadcastAesStep bc hashedSecret senderID payload st := by
  unfold handleBroadcastPayload broadcastAesStep
  rw [if_neg (by simp [h])]

/-- C4: classifying a `MESSAGE from bob:` line applies Decode-direct to the
payload — split at the first separator (FormatError notice when there is
none), hex-decode both parts (DecodeError notice on invalid hex), check the
decoded lengths (FormatError notice on mismatch), else XOR — and the concrete
line `MESSAGE from bob: 0102|0304` yields a `DirectMessage` from "bob" with
plaintext bytes [0x02, 0x06]. -/
theorem c4_direct_decode (bc : BlockCipher) (hashedSecret : List Nat) (payload : List Char) :
    classifyLine bc hashedSecret initState (chars "MESSAGE from bob: " ++ payload)
      = .cont [directEvent (chars "bob") (decodeDirect payload)] initState
    ∧ classifyLine bc hashedSecret initState (chars "MESSAGE from bob: 0102|0304")
      = .cont [.incomingMessage (chars "bob") [2, 6] false] initState := by
  constructor
  · have base : classifyLine bc hashedSecret initState (chars "MESSAGE from bob: " ++ payload)
        = handleDirectPayload (chars "bob") payload initState := rfl
    rw [base, handleDirect_eq]
  · rfl

/-- C5: for a `BROADCAST from alice:` line the decoding scheme is selected
purely by presence of the separator in the undecoded payload: with a
separator the payload is decoded exactly as Decode-direct (XOR sub-format,
broadcast notice texts), otherwise the whole payload is hex-decoded and
block-cipher-decrypted under the shared secret; the two sub-formats are
mutually exclusive. -/
theorem c5_broadcast_format_selection (bc : BlockCipher) (hashedSecret : List Nat)
    (payload : List Char) :
    (containsSub payload barSep = true →
      classifyLine bc hashedSecret initState (chars "BROADCAST from alice: " ++ payload)
        = .cont [broadcastXorEvent (chars "alice") (decodeDirect payload)] initState)
    ∧ (containsSub payload barSep = false →
      classifyLine bc hashedSecret initState (chars "BROADCAST from alice: " ++ payload)
        = broadcastAesStep bc hashedSecret (chars "alice") payload initState) := by
  have base : classifyLine bc hashedSecret initState (chars "BROADCAST from alice: " ++ payload)
      = handleBroadcastPayload bc hashedSecret (chars "alice") payload initState := rfl
  exact ⟨fun h => base.trans (handleBroadcast_xor_eq bc hashedSecret _ payload initState h),
         fun h => base.trans (handleBroadcast_aes_eq bc hashedSecret _ payload initState h)⟩

/-- Witness for C5: payload `0102|0304` takes the XOR sub-format and payload
`012` (no separator, odd-length hex) takes the block-cipher sub-format. -/
theorem c5_broadcast_format_selection_witness :
    classifyLine idCipher (List.replicate 32 0) initState (chars "BROADCAST from alice: 0102|0304")
      = .cont [.incomingMessage (chars "alice") [2, 6] true] initState
    ∧ classifyLine idCipher (List.replicate 32 0) initState (chars "BROADCAST from alice: 012")
      = .cont [.serverMsg
          (chars "Error decoding broadcast from alice: encoding/hex: odd length hex string")]
          initState :=
  ⟨(c5_broadcast_format_selection idCipher (List.replicate 32 0) (chars "0102|0304")).1 rfl,
   (c5_broadcast_format_selection idCipher (List.replicate 32 0) (chars "012")).2 rfl⟩

theorem toBlocksAux_nil (fuel : Nat) : toBlocksAux fuel [] = [] := by
  cases fuel <;> rfl

theorem toBlocksAux_fuel (fuel₁ : Nat) : ∀ (fuel₂ : Nat) (l : List Nat),
    l.length ≤ fuel₁ → l.length ≤ fuel₂ → toBlocksAux fuel₁ l = toBlocksAux fuel₂ l := by
  induction fuel₁ with
  | zero =>
    intro fuel₂ l h₁ _
    have hl : l = [] := by
      cases l with
      | nil => rfl
      | cons x xs => simp at h₁
    subst hl
    rw [toBlocksAux_nil, toBlocksAux_nil]
  | succ f ih =>
    intro fuel₂ l h₁ h₂
    cases l with
    | nil => rw [toBlocksAux_nil, toBlocksAux_nil]
    | cons x xs =>
      cases fuel₂ with
      | zero => simp at h₂
      | succ f₂ =>
        simp only [toBlocksAux]
        simp only [List.length_cons] at h₁ h₂
        refine congrArg _ (ih f₂ _ ?_ ?_) <;>
          simp only [List.length_drop, List.length_cons] <;> omega

theorem toBlocks_cons16 (b rest : List Nat) (hb : b.length = 16) :
    toBlocks (b ++ rest) = b :: toBlocks rest := by
  obtain ⟨y, ys, rfl⟩ : ∃ y ys, b = y :: ys := by
    cases b with
    | nil => simp at hb
    | cons y ys => exact ⟨y, ys, rfl⟩
  have hlen : ((y :: ys) ++ rest).length = (15 + rest.length) + 1 := by
    simp at hb ⊢
    omega
  have h1 : List.take 16 ((y :: ys) ++ rest) = y :: ys := List.take_left' hb
  have h2 : List.drop 16 ((y :: ys) ++ rest) = rest := List.drop_left' hb
  unfold toBlocks
  rw [hlen]
  simp only [List.cons_append] at h1 h2 ⊢
  simp only [toBlocksAux, h1, h2]
  exact congrArg _ (toBlocksAux_fuel _ _ rest (by omega) le_rfl)

theorem toBlocks_props (n : Nat) : ∀ l : List Nat, l.length = 16 * n →
    (∀ b ∈ toBlocks l, b.length = 16) ∧ (toBlocks l).flatten = l := by
  induction n with
  | zero =>
    intro l h
    have hl : l = [] := List.eq_nil_of_length_eq_zero (by omega)
    subst hl
    exact ⟨by simp [toBlocks, toBlocksAux], rfl⟩
  | succ m ih =>
    intro l h
    have htake : (l.take 16).length = 16 := by
      simp [List.length_take]
      omega
    have hdrop : (l.drop 16).length = 16 * m := by
      simp [List.length_drop]
      omega
    obtain ⟨hmem, hflat⟩ := ih (l.drop 16) hdrop
    have ht : toBlocks l = l.take 16 :: toBlocks (l.drop 16) := by
      conv_lhs => rw [← List.take_append_drop 16 l]
      exact toBlocks_cons16 _ _ htake
    constructor
    · intro b hb
      rw [ht] at hb
      rcases List.mem_cons.1 hb with h1 | h2
      · rw [h1]; exact htake
      · exact hmem b h2
    · rw [ht, List.flatten_cons, hflat, List.take_append_drop]

theorem toBlocks_flatten_of_blocks (L : List (List Nat)) (h : ∀ b ∈ L, b.length = 16) :
    toBlocks L.flatten = L := by
  induction L with
  | nil => rfl
  | cons b bs ih =>
    rw [List.flatten_cons, toBlocks_cons16 b _ (h b (by simp)),
      ih (fun x hx => h x (by simp [hx]))]

theorem flatten_len_blocks (L : List (List Nat)) (h : ∀ b ∈ L, b.length = 16) :
    L.flatten.length = 16 * L.length := by
  induction L with
  | nil => simp
  | cons b bs ih =>
    have hb : b.length = 16 := h b (by simp)
    have ihr := ih (fun x hx => h x (by simp [hx]))
    simp only [List.flatten_cons, List.length_append, List.length_cons, hb, ihr]
    omega

theorem cbcEnc_len (E : List Nat → List Nat) (hE : ∀ b, b.length = 16 → (E b).length = 16) :
    ∀ (bs : List (List Nat)) (prev : List Nat), prev.length = 16 →
    (∀ b ∈ bs, b.length = 16) → ∀ c ∈ cbcEncBlocks E prev bs, c.length = 16 := by
  intro bs
  induction bs with
  | nil =>
    intro prev _ _ c hc
    simp [cbcEncBlocks] at hc
  | cons b bs ih =>
    intro prev hprev hmem c hc
    have hb : b.length = 16 := hmem b (by simp)
    have hzip : (zipXor b prev).length = 16 := by simp [zipXor_length, hb, hprev]
    have hEb : (E (zipXor b prev)).length = 16 := hE _ hzip
    simp only [cbcEncBlocks] at hc
    rcases List.mem_cons.1 hc with h1 | h2
    · rw [h1]; exact hEb
    · exact ih (E (zipXor b prev)) hEb (fun x hx => hmem x (by simp [hx])) c h2

theorem cbc_roundtrip (E D : List Nat → List Nat)
    (hE : ∀ b, b.length = 16 → (E b).length = 16)
    (hD : ∀ b, b.length = 16 → D (E b) = b) :
    ∀ (bs : List (List Nat)) (prev : List Nat), prev.length = 16 →
    (∀ b ∈ bs, b.length = 16) →
    cbcDecBlocks D prev (cbcEncBlocks E prev bs) = bs := by
  intro bs
  induction bs with
  | nil => intro prev _ _; rfl
  | cons b bs ih =>
    intro prev hprev hmem
    have hb : b.length = 16 := hmem b (by simp)
    have hzip : (zipXor b prev).length = 16 := by simp [zipXor_length, hb, hprev]
    simp only [cbcEncBlocks, cbcDecBlocks]
    rw [hD _ hzip, zipXor_cancel b prev (by omega),
      ih (E (zipXor b prev)) (hE _ hzip) (fun x hx => hmem x (by simp [hx]))]

theorem getLast?_append_replicate (p : List Nat) (n v : Nat) (h : 1 ≤ n) :
    (p ++ List.replicate n v).getLast? = some v := by
  obtain ⟨m, rfl⟩ : ∃ m, n = m + 1 := ⟨n - 1, by omega⟩
  rw [List.replicate_succ' m v, ← List.append_assoc]
  exact List.getLast?_concat _

/-- C2: for every key of an accepted length, every plaintext (including the
empty one and exactly-one-block ones), and every 16-byte IV the encryptor may
draw, decrypting the output of `encryptAES` under the same key with the
inverse block cipher returns exactly the original plaintext. -/
theorem c2_block_roundtrip (bc : BlockCipher) (key iv p ct : List Nat)
    (hiv : iv.length = 16)
    (hE : ∀ b, b.length = 16 → (bc.enc key b).length = 16)
    (hD : ∀ b, b.length = 16 → bc.dec key (bc.enc key b) = b)
    (henc : encryptAES bc iv key p = Except.ok ct) :
    decryptAES bc key ct = AESResult.ok p := by
  by_cases hk : validKeySize key.length = true
  case neg => simp [encryptAES, hk] at henc
  have hct : ct = iv ++ (cbcEncBlocks (bc.enc key) iv
      (toBlocks (p ++ List.replicate (16 - p.length % 16) (16 - p.length % 16)))).flatten := by
    simp [encryptAES, hk] at henc
    exact henc.symm
  subst hct
  have hpadlen : (p ++ List.replicate (16 - p.length % 16) (16 - p.length % 16)).length
      = p.length + (16 - p.length % 16) := by simp
  have hpadmod : (p ++ List.replicate (16 - p.length % 16) (16 - p.length % 16)).length % 16 = 0 := by
    rw [hpadlen]
    omega
  obtain ⟨hblocks16, hflatten⟩ :=
    toBlocks_props ((p ++ List.replicate (16 - p.length % 16) (16 - p.length % 16)).length / 16)
      (p ++ List.replicate (16 - p.length % 16) (16 - p.length % 16)) (by omega)
  have hEB16 : ∀ c ∈ cbcEncBlocks (bc.enc key) iv
      (toBlocks (p ++ List.replicate (16 - p.length % 16) (16 - p.length % 16))), c.length = 16 :=
    cbcEnc_len _ hE _ iv hiv hblocks16
  have hflatlen : (cbcEncBlocks (bc.enc key) iv
      (toBlocks (p ++ List.replicate (16 - p.length % 16) (16 - p.length % 16)))).flatten.length
      = 16 * (cbcEncBlocks (bc.enc key) iv
          (toBlocks (p ++ List.replicate (16 - p.length % 16) (16 - p.length % 16)))).length :=
    flatten_len_blocks _ hEB16
  simp only [decryptAES]
  rw [if_neg (by simp only [List.length_append, hiv]; omega), if_pos hk,
    List.take_left' hiv, List.drop_left' hiv, if_pos (by rw [hflatlen]; omega),
    toBlocks_flatten_of_blocks _ hEB16,
    cbc_roundtrip (bc.enc key) (bc.dec key) hE hD _ iv hiv hblocks16, hflatten,
    getLast?_append_replicate p _ _ (by omega)]
  have hlt2 : ¬ ((p ++ List.replicate (16 - p.length % 16) (16 - p.length % 16)).length
      < (16 - p.length % 16)) := by
    rw [hpadlen]
    omega
  have htake : (p ++ List.replicate (16 - p.length % 16) (16 - p.length % 16)).length
      - (16 - p.length % 16) = p.length := by
    rw [hpadlen]
    omega
  simp only [hlt2, htake, if_false, List.take_left' (rfl : p.length = p.length)]

/-- Witness for C2 with the identity block cipher, a 16-byte key and IV, an
empty plaintext and an exactly-one-block plaintext. -/
theorem c2_block_roundtrip_witness :
    decryptAES idCipher (List.replicate 16 0)
        (List.replicate 16 0 ++ List.replicate 16 16) = AESResult.ok []
    ∧ decryptAES idCipher (List.replicate 16 0)
        (List.replicate 16 0 ++ (List.replicate 16 1 ++ List.replicate 16 17))
        = AESResult.ok (List.replicate 16 1) :=
  ⟨c2_block_roundtrip idCipher (List.replicate 16 0) (List.replicate 16 0) [] _
      (by decide) (fun b h => h) (fun b _ => rfl) rfl,
   c2_block_roundtrip idCipher (List.replicate 16 0) (List.replicate 16 0) (List.replicate 16 1) _
      (by decide) (fun b h => h) (fun b _ => rfl) rfl⟩

/-- C7: `encryptAES` pads the plaintext with n bytes of value n where
n = 16 - len mod 16 lies between 1 and 16 (a block-aligned plaintext gains a
full extra block), returns the IV prepended to the CBC-encrypted blocks, and
fails exactly when the key length is not an accepted key size. -/
theorem c7_encrypt_structure (bc : BlockCipher) (iv key p : List Nat) :
    (validKeySize key.length = true →
      encryptAES bc iv key p
        = Except.ok (iv ++ (cbcEncBlocks (bc.enc key) iv
            (toBlocks (p ++ List.replicate (16 - p.length % 16) (16 - p.length % 16)))).flatten)
      ∧ 1 ≤ 16 - p.length % 16 ∧ 16 - p.length % 16 ≤ 16
      ∧ (p.length + (16 - p.length % 16)) % 16 = 0
      ∧ (p.length % 16 = 0 → 16 - p.length % 16 = 16))
    ∧ (validKeySize key.length = false →
      encryptAES bc iv key p = Except.error (keySizeErr key.length)) := by
  constructor
  · intro hk
    exact ⟨by simp [encryptAES, hk], by omega, by omega, by omega, fun h => by omega⟩
  · intro hk
    simp [encryptAES, hk]

/-- Witness for C7 at a valid 16-byte key and an invalid 5-byte key. -/
theorem c7_encrypt_structure_witness :
    encryptAES idCipher (List.replicate 16 0) (List.replicate 16 0) [1]
      = Except.ok (List.replicate 16 0 ++ (cbcEncBlocks (idCipher.enc (List.replicate 16 0))
          (List.replicate 16 0) (toBlocks ([1] ++ List.replicate 15 15))).flatten)
    ∧ encryptAES idCipher (List.replicate 16 0) (List.replicate 5 0) [1]
      = Except.error (keySizeErr 5) :=
  ⟨((c7_encrypt_structure idCipher (List.replicate 16 0) (List.replicate 16 0) [1]).1
      (by decide)).1,
   (c7_encrypt_structure idCipher (List.replicate 16 0) (List.replicate 5 0) [1]).2 (by decide)⟩

theorem classify_collect (bc : BlockCipher) (hashedSecret : List Nat)
    (buf : List (List Char)) (l : List Char)
    (h1 : l ≠ regLine) (h2 : l ≠ kickLine) (h3 : l ≠ banLine)
    (h4 : l ≠ beginLine) (h5 : l ≠ endLine) :
    classifyLine bc hashedSecret ⟨true, buf⟩ l = .cont [] ⟨true, buf ++ [l]⟩ := by
  unfold classifyLine
  rw [if_neg h1, if_neg h2, if_neg h3, if_neg h4, if_neg h5, if_pos rfl]

theorem run_collect (bc : BlockCipher) (hashedSecret : List Nat) :
    ∀ (lines buf tail : List (List Char)),
    (∀ l ∈ lines, trimRightCRLF l = l ∧ l ≠ [] ∧ l ≠ regLine ∧ l ≠ kickLine
        ∧ l ≠ banLine ∧ l ≠ beginLine ∧ l ≠ endLine) →
    readMessages bc hashedSecret ⟨true, buf⟩ (lines ++ tail)
      = readMessages bc hashedSecret ⟨true, buf ++ lines⟩ tail := by
  intro lines
  induction lines with
  | nil =>
    intro buf tail _
    rw [List.nil_append, List.append_nil]
  | cons l ls ih =>
    intro buf tail h
    obtain ⟨htrim, hne, h1, h2, h3, h4, h5⟩ := h l (by simp)
    have hstep := classify_collect bc hashedSecret buf l h1 h2 h3 h4 h5
    calc readMessages bc hashedSecret ⟨true, buf⟩ ((l :: ls) ++ tail)
        = readMessages bc hashedSecret ⟨true, buf ++ [l]⟩ (ls ++ tail) := by
          simp only [List.cons_append, readMessages, htrim]
          rw [if_neg hne, hstep]
          rfl
      _ = readMessages bc hashedSecret ⟨true, (buf ++ [l]) ++ ls⟩ tail :=
          ih (buf ++ [l]) tail (fun x hx => h x (by simp [hx]))
      _ = readMessages bc hashedSecret ⟨true, buf ++ l :: ls⟩ tail := by
          rw [← List.append_cons]

/-- C3: from the Normal state, feeding `BEGIN_RESPONSE`, then N arbitrary
non-blank non-sentinel lines, then `END_RESPONSE` yields exactly one
`ServerNotice` whose text is the N lines joined by the newline character,
with zero events emitted for the interior lines (blank lines are discarded
before classification, so they are excluded by hypothesis). -/
theorem c3_capture (bc : BlockCipher) (hashedSecret : List Nat) (st : ReaderState)
    (lines rest : List (List Char))
    (h : ∀ l ∈ lines, trimRightCRLF l = l ∧ l ≠ [] ∧ l ≠ regLine ∧ l ≠ kickLine
        ∧ l ≠ banLine ∧ l ≠ beginLine ∧ l ≠ endLine) :
    readMessages bc hashedSecret st (beginLine :: (lines ++ endLine :: rest))
      = (Msg.serverMsg (joinNL lines) :: (readMessages bc hashedSecret ⟨false, lines⟩ rest).1,
         (readMessages bc hashedSecret ⟨false, lines⟩ rest).2) := by
  have hbegin : readMessages bc hashedSecret st (beginLine :: (lines ++ endLine :: rest))
      = readMessages bc hashedSecret ⟨true, []⟩ (lines ++ endLine :: rest) := rfl
  rw [hbegin, run_collect bc hashedSecret lines [] (endLine :: rest) h, List.nil_append]
  rfl

/-- Witness for C3 with the two interior lines `a` and `b` and an empty
remaining stream. -/
theorem c3_capture_witness :
    readMessages idCipher [] initState
        (beginLine :: ([chars "a", chars "b"] ++ endLine :: []))
      = ([Msg.serverMsg (chars "a\nb"), Msg.disconnectMsg], Termination.disconnected) :=
  c3_capture idCipher [] initState [chars "a", chars "b"] [] (by decide)

end PadClient
